import Mathlib

/-!
Shallow embedding of the kaihan static-site generator (Rust) for claim
verification.  The embedding follows `src/markdown.rs` and `src/main.rs`:
the pulldown-cmark event model is restricted to the constructors the code
inspects (all other events are represented by `Text`/`Other` and pass
through untouched, exactly as the catch-all arms of the source do).
-/

namespace Kaihan

/-- `pulldown_cmark::Tag`, restricted to the constructors matched by the code.
`Link` keeps the four fields of the source (`link_type`, `dest_url`, `title`,
`id`); `link_type` is opaque to the code, modelled as a `Nat`. -/
inductive Tag where
  | FootnoteDefinition (label : String)
  | Link (link_type : Nat) (dest_url : String) (title : String) (id : String)
  | Paragraph
  | Other (code : Nat)
deriving DecidableEq, Repr

/-- `pulldown_cmark::TagEnd`, restricted to the constructors matched by the code. -/
inductive TagEnd where
  | FootnoteDefinition
  | Paragraph
  | Other (code : Nat)
deriving DecidableEq, Repr

/-- `pulldown_cmark::Event`, restricted to the constructors matched by the code. -/
inductive Event where
  | Start (t : Tag)
  | End (t : TagEnd)
  | FootnoteReference (label : String)
  | Html (s : String)
  | Rule
  | Text (s : String)
  | Other (code : Nat)
deriving DecidableEq, Repr

/-! ### `bottom_footnotes` (src/markdown.rs:39-183)

The Rust `footnote_numbers : HashMap<CowStr, (usize, usize)>` is modelled as an
association list with distinct keys (the code only ever uses `get`, `entry`
and `len`, never iteration order, so an association list is observationally
identical). An entry `(label, n, count)` records the footnote number `n`
assigned at first reference and the running usage count. -/

/-- `footnote_numbers.get(name)` (lookup in the association list). -/
def lookupNumber : List (String × Nat × Nat) → String → Option (Nat × Nat)
  | [], _ => none
  | (k, v) :: rest, name => if k = name then some v else lookupNumber rest name

/-- Replace the usage count stored for `name` (the in-place `*nr += 1`). -/
def setCount : List (String × Nat × Nat) → String → Nat → List (String × Nat × Nat)
  | [], _, _ => []
  | (k, n, c) :: rest, name, c' =>
    if k = name then (k, n, c') :: rest else (k, n, c) :: setCount rest name c'

/-- src/markdown.rs:59-61:
`let n = footnote_numbers.len() + 1;`
`let (n, nr) = footnote_numbers.entry(name.clone()).or_insert((n, 0usize));`
`*nr += 1;`
Returns the updated map together with the number `n` and the incremented
usage index `nr` used to synthesize the inline anchor. -/
def bumpRef (m : List (String × Nat × Nat)) (name : String) :
    List (String × Nat × Nat) × Nat × Nat :=
  match lookupNumber m name with
  | some (n, c) => (setCount m name (c + 1), n, c + 1)
  | none => (m ++ [(name, m.length + 1, 1)], m.length + 1, 1)

/-- src/markdown.rs:62: the synthesized inline anchor for a footnote reference. -/
def refHtml (name : String) (n nr : Nat) : Event :=
  .Html s!"<sup class=\"footnote-reference\" id=\"fr-{name}-{nr}\"><a href=\"#fn-{name}\">[{n}]</a></sup>"

/-- The state of the single forward pass of `bottom_footnotes`
(src/markdown.rs:42-44 plus the accumulator of the `filter_map`).
`in_footnote` is the stack of open definition buffers, innermost first
(the Rust `Vec` pushes/pops/mutates at the back; we use the list head). -/
structure PassState where
  new_events : List Event
  footnotes : List (List Event)
  in_footnote : List (List Event)
  footnote_numbers : List (String × Nat × Nat)
deriving DecidableEq, Repr

/-- One step of the `filter_map` closure of src/markdown.rs:46-76.
`none` models the `in_footnote.pop().unwrap()` panic on a footnote-definition
end with no open definition. -/
def step (st : PassState) (event : Event) : Option PassState :=
  match event with
  | .Start (.FootnoteDefinition _) =>
      some { st with in_footnote := [event] :: st.in_footnote }
  | .End .FootnoteDefinition =>
      match st.in_footnote with
      | [] => none
      | f :: rest =>
          some { st with in_footnote := rest, footnotes := st.footnotes ++ [f ++ [event]] }
  | .FootnoteReference name =>
      let r := bumpRef st.footnote_numbers name
      let html := refHtml name r.2.1 r.2.2
      match st.in_footnote with
      | [] => some { st with footnote_numbers := r.1, new_events := st.new_events ++ [html] }
      | buf :: rest =>
          some { st with footnote_numbers := r.1, in_footnote := (buf ++ [html]) :: rest }
  | _ =>
      match st.in_footnote with
      | buf :: rest => some { st with in_footnote := (buf ++ [event]) :: rest }
      | [] => some { st with new_events := st.new_events ++ [event] }

def initialState : PassState := ⟨[], [], [], []⟩

/-- The full forward pass (src/markdown.rs:46-76). -/
def runPass (events : List Event) : Option PassState :=
  events.foldlM step initialState

/-- src/markdown.rs:96-101, the `retain` predicate:
`footnote_numbers.get(name).unwrap_or(&(0, 0)).1 != 0` when the first event is
a definition start, `false` otherwise. -/
def isReferenced (numbers : List (String × Nat × Nat)) (f : List Event) : Bool :=
  match f.head? with
  | some (.Start (.FootnoteDefinition name)) => ((lookupNumber numbers name).getD (0, 0)).2 ≠ 0
  | _ => false

/-- src/markdown.rs:102-107, the `sort_by_cached_key` key:
`footnote_numbers.get(name).unwrap_or(&(0, 0)).0`. The `_` arm is
`unreachable!()` in the source (after `retain`, every entry starts with a
definition-start event); we return 0 there. -/
def sortKey (numbers : List (String × Nat × Nat)) (f : List Event) : Nat :=
  match f.head? with
  | some (.Start (.FootnoteDefinition name)) => ((lookupNumber numbers name).getD (0, 0)).1
  | _ => 0

/-- src/markdown.rs:159-166: one back-reference anchor; the first usage is a
plain return glyph, later usages carry the usage number. -/
def backrefAnchor (name : String) (usage : Nat) : String :=
  if usage = 1 then s!" <a href=\"#fr-{name}-{usage}\">↩</a>"
  else s!" <a href=\"#fr-{name}-{usage}\">↩{usage}</a>"

/-- src/markdown.rs:156-166: the `for usage in 1..=usage_count` write loop. -/
def backrefString (name : String) (usage_count : Nat) : String :=
  String.join ((List.range usage_count).map fun k => backrefAnchor name (k + 1))

/-- src/markdown.rs:146-178: the per-footnote `map` closure, written as a
recursion carrying the closure's mutable state (`i`, `name`,
`has_written_backrefs`). The usage-count lookup is the source's
`footnote_numbers.get(&name).unwrap().1`, modelled with a `(0, 0)` default
(the label of every retained footnote is present in the map).
A `FootnoteReference` is `unreachable!()` in the source (all references were
converted to `Html` during the pass); the catch-all passes it through. -/
def renderEvents (numbers : List (String × Nat × Nat)) (fl_len : Nat) :
    Nat → String → Bool → List Event → List Event
  | _, _, _, [] => []
  | i, name, has_written_backrefs, f :: rest =>
    match f with
    | .Start (.FootnoteDefinition current_name) =>
        .Html s!"<li id=\"fn-{current_name}\">" ::
          renderEvents numbers fl_len (i + 1) current_name false rest
    | .End .FootnoteDefinition =>
        if !has_written_backrefs && fl_len - 2 ≤ i then
          .Html (backrefString name ((lookupNumber numbers name).getD (0, 0)).2 ++ "</li>\n") ::
            renderEvents numbers fl_len (i + 1) name true rest
        else
          .Html "</li>\n" :: renderEvents numbers fl_len (i + 1) name has_written_backrefs rest
    | .End .Paragraph =>
        if !has_written_backrefs && fl_len - 2 ≤ i then
          .Html (backrefString name ((lookupNumber numbers name).getD (0, 0)).2 ++ "</p>\n") ::
            renderEvents numbers fl_len (i + 1) name true rest
        else
          f :: renderEvents numbers fl_len (i + 1) name has_written_backrefs rest
    | f' => f' :: renderEvents numbers fl_len (i + 1) name has_written_backrefs rest

/-- src/markdown.rs:111-179: render one collected footnote body. -/
def renderFootnote (numbers : List (String × Nat × Nat)) (fl : List Event) : List Event :=
  renderEvents numbers fl.length 0 "" false fl

/-- src/markdown.rs:109. -/
def olOpen : Event := .Html "<ol class=\"footnotes-list\">"

/-- src/markdown.rs:96-107: `retain` then `sort_by_cached_key`
(a stable sort by the first-reference number; stable sorts are extensionally
unique, so insertion sort is observationally the source's sort). -/
def survivors (st : PassState) : List (List Event) :=
  (st.footnotes.filter (isReferenced st.footnote_numbers)).insertionSort fun f g =>
    sortKey st.footnote_numbers f ≤ sortKey st.footnote_numbers g

/-- src/markdown.rs:39-183, `bottom_footnotes`. `none` models the panic on
unbalanced footnote-definition events; note the `if !footnotes.is_empty()`
check happens before `retain`, exactly as in the source. -/
def bottom_footnotes (events : List Event) : Option (List Event) := do
  let st ← runPass events
  if st.footnotes.isEmpty then
    pure st.new_events
  else
    pure (st.new_events ++ [Event.Rule, olOpen] ++
      ((survivors st).map (renderFootnote st.footnote_numbers)).flatten)

/-! ### Link-destination rewrite (src/markdown.rs:14-32 and src/main.rs:173-191)

The map closure of `to_events`/`to_md_events`: a link start event has its
destination rewritten with `dest_url.trim_start_matches("!")`; every other
event is returned unchanged. -/

/-- `dest_url.trim_start_matches("!")`: repeatedly remove a leading `"!"`,
i.e. drop all leading `'!'` characters. -/
def trim_start_bang (s : String) : String :=
  ⟨s.toList.dropWhile (fun c => c = '!')⟩

/-- The body of the `parser.map` closure (src/markdown.rs:14-32). -/
def rewriteLink (e : Event) : Event :=
  match e with
  | .Start (.Link link_type dest_url title id) =>
      .Start (.Link link_type (trim_start_bang dest_url) title id)
  | _ => e

/-- The Event Rewriter applied to a whole event sequence. -/
def eventRewriter (events : List Event) : List Event :=
  events.map rewriteLink

/-- src/markdown.rs:6-35, `to_events`, modulo the external tokenizer: the
rewritten event stream is fed to `bottom_footnotes`. -/
def to_events (events : List Event) : Option (List Event) :=
  bottom_footnotes (eventRewriter events)

/-! ### Claim-support predicates over event streams -/

/-- An event the footnote pass treats specially (definition start/end,
reference); every other event passes through the catch-all arms. -/
def isFootnoteEvent (e : Event) : Bool :=
  match e with
  | .Start (.FootnoteDefinition _) => true
  | .End .FootnoteDefinition => true
  | .FootnoteReference _ => true
  | _ => false

/-- Well-nestedness of footnote-definition events: scanning left to right
with `depth` open definitions, an end event never occurs at depth 0. -/
def balancedDefs : List Event → Nat → Bool
  | [], _ => true
  | e :: rest, depth =>
    match e with
    | .Start (.FootnoteDefinition _) => balancedDefs rest (depth + 1)
    | .End .FootnoteDefinition => decide (0 < depth) && balancedDefs rest (depth - 1)
    | _ => balancedDefs rest depth

/-- Number of reference events for label `L` in a stream. -/
def countRefs (evs : List Event) (L : String) : Nat :=
  (evs.filter fun e => e = .FootnoteReference L).length

/-- The usage count recorded for `L` (0 when `L` is absent). -/
def usageCount (numbers : List (String × Nat × Nat)) (L : String) : Nat :=
  ((lookupNumber numbers L).map (fun p => p.2)).getD 0

/-! ### Front-matter parsing (src/main.rs:77-107 inside `read_source_files`)

Strings are processed as character lists so every operation the code performs
(`split_once`, `split`, `contains`, `to_ascii_lowercase`) is an explicit
recursion we can reason about. -/

inductive MetadataError where
  | MissingBlankLine  -- `contents.split_once("\n\n").ok_or(anyhow!("Must have metadata!"))`
  | MissingTitle      -- `assert!(metadata.contains("title: "))` (a panic in the source)
  | BadKeyValue       -- `l.split_once(": ").ok_or(anyhow!("Metadata must be : delimited"))`
deriving DecidableEq, Repr

/-- Rust `str::split_once(pat)`: split at the first occurrence of `pat`,
returning the parts before and after it, or `None` when `pat` never occurs. -/
def splitOnceList (pat : List Char) : List Char → Option (List Char × List Char)
  | [] => none
  | c :: rest =>
    if pat.isPrefixOf (c :: rest) then some ([], (c :: rest).drop pat.length)
    else
      match splitOnceList pat rest with
      | some (pre, post) => some (c :: pre, post)
      | none => none

/-- Rust `str::contains(pat)` for a non-empty pattern. -/
def containsSub (pat : List Char) : List Char → Bool
  | [] => pat.isPrefixOf []
  | c :: rest => pat.isPrefixOf (c :: rest) || containsSub pat rest

/-- Number of positions at which `pat` occurs. -/
def countSub (pat : List Char) : List Char → Nat
  | [] => if pat.isPrefixOf [] then 1 else 0
  | c :: rest => (if pat.isPrefixOf (c :: rest) then 1 else 0) + countSub pat rest

/-- src/main.rs:87-91: one metadata line,
`l.split_once(": ").map(|(k, v)| (k.to_ascii_lowercase(), v.to_owned()))`. -/
def parseLine (l : List Char) : Except MetadataError (List Char × List Char) :=
  match splitOnceList [':', ' '] l with
  | some (k, v) => .ok (k.map Char.toLower, v)
  | none => .error .BadKeyValue

/-- Rust `collect::<Result<...>>` over the per-line parses: stop at the first
failing line, otherwise collect all key/value pairs in order. -/
def collectLines : List (List Char) → Except MetadataError (List (List Char × List Char))
  | [] => .ok []
  | l :: rest =>
    match parseLine l with
    | .error e => .error e
    | .ok kv =>
      match collectLines rest with
      | .error e => .error e
      | .ok kvs => .ok (kv :: kvs)

/-- src/main.rs:80-92: front-matter parsing. Split at the first blank line,
assert the metadata block mentions a title, then parse each `\n`-separated
line; any line failure aborts (the `collect::<Result<...>>`). -/
def parseFrontMatter (contents : List Char) :
    Except MetadataError (List (List Char × List Char) × List Char) :=
  match splitOnceList ['\n', '\n'] contents with
  | none => .error .MissingBlankLine
  | some (metadata, markdown) =>
    if containsSub "title: ".toList metadata then
      match collectLines (metadata.splitOn '\n') with
      | .ok kvs => .ok (kvs, markdown)
      | .error e => .error e
    else
      .error .MissingTitle

/-- Whether an `Except` value is a success. -/
def exceptOk {ε α : Type} : Except ε α → Bool
  | .ok _ => true
  | .error _ => false

/-- The success value of an `Except`, if any. -/
def exceptValue {ε α : Type} : Except ε α → Option α
  | .ok a => some a
  | .error _ => none

/-! ### Output-path derivation (src/main.rs:109-129) -/

/-- Rust `char::is_ascii_whitespace`: space, tab, newline, form feed,
carriage return. -/
def isAsciiWhitespace (c : Char) : Bool :=
  c = ' ' || c = '\t' || c = '\n' || c = '\x0C' || c = '\r'

/-- src/main.rs:112-119: the slug of a title — keep alphanumeric and ASCII
whitespace characters, ASCII-lowercase, replace `' '` with `'-'`.
(Rust `char::is_alphanumeric` is Unicode-aware; the embedding models the
ASCII classes, which is exact on ASCII titles.) -/
def slugify (title : String) : String :=
  ⟨((title.toList.filter fun c => c.isAlphanum || isAsciiWhitespace c).map
      Char.toLower).map fun c => if c = ' ' then '-' else c⟩

/-- A calendar date as used by `date.format("%Y/%m/%d")`. -/
structure Date where
  year : Nat
  month : Nat
  day : Nat
deriving DecidableEq, Repr

/-- Zero-pad to two digits (chrono `%m` / `%d`). -/
def pad2 (n : Nat) : String :=
  if n < 10 then "0" ++ toString n else toString n

/-- Zero-pad to four digits (chrono `%Y`, for years in `[0, 9999]`). -/
def pad4 (n : Nat) : String :=
  if n < 10 then "000" ++ toString n
  else if n < 100 then "00" ++ toString n
  else if n < 1000 then "0" ++ toString n
  else toString n

/-- `date.format("%Y/%m/%d").to_string()`. -/
def formatYmd (d : Date) : String :=
  pad4 d.year ++ "/" ++ pad2 d.month ++ "/" ++ pad2 d.day

/-- First-match lookup in the metadata mapping (Rust `HashMap::get`; parsed
metadata has one value per key). -/
def mlookup : List (String × String) → String → Option String
  | [], _ => none
  | (k, v) :: rest, key => if k = key then some v else mlookup rest key

/-- src/main.rs:109-129: the output path of a content item. `save_as` wins
verbatim; otherwise the slug of the title (the source's
`metadata.get("title").unwrap()` is modelled by `none` on a missing title),
placed at the root for `layout == "page"` and under
`blog/<Y>/<m>/<d>/` otherwise (missing layout defaults to `""`). -/
def output_path (metadata : List (String × String)) (date : Date) : Option String :=
  match mlookup metadata "save_as" with
  | some p => some p
  | none => do
    let title ← mlookup metadata "title"
    let slug := slugify title
    if (mlookup metadata "layout").getD "" = "page" then
      pure slug
    else
      pure ("blog/" ++ formatYmd date ++ "/" ++ slug)

/-! ### Tag-cloud weight (src/main.rs:446-458)

`((max_step - 1f32) * (1f32 - (posts.len() as f32).ln() / max_count.ln().max(1f32))).floor() as i32 + 1`
modelled over exact reals (`Real.log` for `f32::ln`); the `as i32` cast agrees
with `Int.floor` on the non-negative values arising for `1 ≤ count ≤ max_count`. -/

/-- `let max_step = 5f32`. -/
def max_step : ℝ := 5

/-- The weight computed by the code for a tag with `count` members, where
`max_count` is the size of the largest tag. -/
noncomputable def tag_weight (count max_count : ℕ) : ℤ :=
  ⌊(max_step - 1) * (1 - Real.log count / max (Real.log max_count) 1)⌋ + 1

/-- Modelled from the claim's wording: the same weight written with the
denominator `ln (max (max_count, e))`; compared against `tag_weight`. -/
noncomputable def claim_weight (count max_count : ℕ) : ℤ :=
  ⌊(max_step - 1) * (1 - Real.log count / Real.log (max (max_count : ℝ) (Real.exp 1)))⌋ + 1

/-! ### Concrete example streams -/

/-- The spec's ordering test: references `[^b]`, `[^a]`, `[^b]`, with `[^a]`
defined before `[^b]`. -/
def exampleBA : List Event :=
  [ .Start .Paragraph, .Text "test ", .FootnoteReference "b", .Text " ",
    .FootnoteReference "a", .Text " ", .FootnoteReference "b", .End .Paragraph,
    .Start (.FootnoteDefinition "a"), .Start .Paragraph, .Text "A", .End .Paragraph,
    .End .FootnoteDefinition,
    .Start (.FootnoteDefinition "b"), .Start .Paragraph, .Text "B", .End .Paragraph,
    .End .FootnoteDefinition ]

/-- The pass state after `runPass exampleBA`. -/
def exampleBASt : PassState :=
  { new_events :=
      [ .Start .Paragraph, .Text "test ",
        .Html "<sup class=\"footnote-reference\" id=\"fr-b-1\"><a href=\"#fn-b\">[1]</a></sup>",
        .Text " ",
        .Html "<sup class=\"footnote-reference\" id=\"fr-a-1\"><a href=\"#fn-a\">[2]</a></sup>",
        .Text " ",
        .Html "<sup class=\"footnote-reference\" id=\"fr-b-2\"><a href=\"#fn-b\">[1]</a></sup>",
        .End .Paragraph ],
    footnotes :=
      [ [ .Start (.FootnoteDefinition "a"), .Start .Paragraph, .Text "A",
          .End .Paragraph, .End .FootnoteDefinition ],
        [ .Start (.FootnoteDefinition "b"), .Start .Paragraph, .Text "B",
          .End .Paragraph, .End .FootnoteDefinition ] ],
    in_footnote := [],
    footnote_numbers := [("b", 1, 2), ("a", 2, 1)] }

/-- The output `bottom_footnotes` produces for `exampleBA`: `B`'s list item
first (numbered 1), then `A`'s (numbered 2); `B` carries back-references
`↩` and `↩2`, `A` carries a single `↩`. -/
def exampleBAOut : List Event :=
  [ .Start .Paragraph, .Text "test ",
    .Html "<sup class=\"footnote-reference\" id=\"fr-b-1\"><a href=\"#fn-b\">[1]</a></sup>",
    .Text " ",
    .Html "<sup class=\"footnote-reference\" id=\"fr-a-1\"><a href=\"#fn-a\">[2]</a></sup>",
    .Text " ",
    .Html "<sup class=\"footnote-reference\" id=\"fr-b-2\"><a href=\"#fn-b\">[1]</a></sup>",
    .End .Paragraph,
    .Rule, .Html "<ol class=\"footnotes-list\">",
    .Html "<li id=\"fn-b\">", .Start .Paragraph, .Text "B",
    .Html " <a href=\"#fr-b-1\">↩</a> <a href=\"#fr-b-2\">↩2</a></p>\n",
    .Html "</li>\n",
    .Html "<li id=\"fn-a\">", .Start .Paragraph, .Text "A",
    .Html " <a href=\"#fr-a-1\">↩</a></p>\n",
    .Html "</li>\n" ]

/-! ## Helper lemmas -/

theorem dropWhile_idem {α : Type} (p : α → Bool) (l : List α) :
    (l.dropWhile p).dropWhile p = l.dropWhile p := by
  induction l with
  | nil => rfl
  | cons c rest ih =>
    by_cases h : p c
    · simpa [List.dropWhile_cons, h] using ih
    · simp [List.dropWhile_cons, h]

theorem head?_dropWhile {α : Type} (p : α → Bool) (l : List α) :
    ∀ a, (l.dropWhile p).head? = some a → p a = false := by
  induction l with
  | nil => intro a h; simp at h
  | cons c rest ih =>
    intro a h
    by_cases hc : p c
    · exact ih a (by simpa [List.dropWhile_cons, hc] using h)
    · simp [List.dropWhile_cons, hc] at h
      subst h
      simpa using hc

theorem trim_start_bang_idem (s : String) :
    trim_start_bang (trim_start_bang s) = trim_start_bang s := by
  unfold trim_start_bang
  congr 1
  exact dropWhile_idem _ s.toList

theorem rewriteLink_idem (e : Event) : rewriteLink (rewriteLink e) = rewriteLink e := by
  cases e with
  | Start t =>
    cases t with
    | Link lt d ti i => simp [rewriteLink, trim_start_bang_idem]
    | _ => rfl
  | _ => rfl

/-! ## Claim theorems -/

/-- C4: the Event Rewriter rewrites only link-start events, replacing the
destination with the destination stripped of its leading `!` archival-escape
marker characters (what is removed is exactly a run of `'!'`, and the result
no longer starts with `'!'`); every other event passes through unchanged, and
the rewrite is total (one output event per input event). -/
theorem c4_event_rewriter :
    (∀ lt d t i, rewriteLink (.Start (.Link lt d t i)) =
        .Start (.Link lt (trim_start_bang d) t i)) ∧
    (∀ e : Event, (∀ lt d t i, e ≠ .Start (.Link lt d t i)) → rewriteLink e = e) ∧
    (∀ d : String,
        d.toList.takeWhile (fun c => c = '!') ++ (trim_start_bang d).toList = d.toList ∧
        (∀ c ∈ d.toList.takeWhile (fun c => c = '!'), c = '!') ∧
        ∀ a, (trim_start_bang d).toList.head? = some a → a ≠ '!') ∧
    (∀ evs, (eventRewriter evs).length = evs.length) := by
  refine ⟨fun lt d t i => rfl, ?_, ?_, fun evs => List.length_map _ _⟩
  · intro e he
    cases e with
    | Start t =>
      cases t with
      | Link lt d ti i => exact absurd rfl (he lt d ti i)
      | _ => rfl
    | _ => rfl
  · intro d
    refine ⟨List.takeWhile_append_dropWhile _ _, ?_, ?_⟩
    · intro c hc
      have := List.mem_takeWhile_imp hc
      simpa using this
    · intro a ha
      have := head?_dropWhile _ d.toList a ha
      simpa using this

/-- C4 witness: the rewrite at a link-start event with a marked destination
and at a non-link event. -/
theorem c4_witness :
    rewriteLink (.Start (.Link 0 "!x" "" "")) = .Start (.Link 0 (trim_start_bang "!x") "" "") ∧
    rewriteLink .Rule = .Rule :=
  ⟨c4_event_rewriter.1 0 "!x" "" "",
   c4_event_rewriter.2.1 .Rule (fun _ _ _ _ h => Event.noConfusion h)⟩

/-- C5: the Event Rewriter is idempotent — applying it to an already-rewritten
event sequence is a no-op, and on every destination URL
`strip (strip u) = strip u`. -/
theorem c5_rewriter_idempotent :
    (∀ evs, eventRewriter (eventRewriter evs) = eventRewriter evs) ∧
    (∀ u : String, trim_start_bang (trim_start_bang u) = trim_start_bang u) := by
  constructor
  · intro evs
    unfold eventRewriter
    rw [List.map_map]
    exact List.map_congr_left fun e _ => rewriteLink_idem e
  · exact trim_start_bang_idem

/-- A non-footnote event with no open definition buffer is passed straight to
the output accumulator. -/
theorem step_other (st : PassState) (e : Event) (hstack : st.in_footnote = [])
    (he : isFootnoteEvent e = false) :
    step st e = some { st with new_events := st.new_events ++ [e] } := by
  obtain ⟨ne, fns, inf, nums⟩ := st
  cases hstack
  cases e with
  | Start t => cases t with
    | FootnoteDefinition l => simp [isFootnoteEvent] at he
    | _ => rfl
  | End t => cases t with
    | FootnoteDefinition => simp [isFootnoteEvent] at he
    | _ => rfl
  | FootnoteReference l => simp [isFootnoteEvent] at he
  | _ => rfl

/-- The pass over a footnote-free stream appends it to the accumulator and
leaves the rest of the state alone. -/
theorem foldlM_step_no_footnote (evs : List Event) :
    ∀ st : PassState, st.in_footnote = [] → (∀ e ∈ evs, isFootnoteEvent e = false) →
      evs.foldlM step st = some { st with new_events := st.new_events ++ evs } := by
  induction evs with
  | nil => intro st h1 _; simp [List.foldlM_nil]
  | cons e rest ih =>
    intro st h1 h2
    rw [List.foldlM_cons, step_other st e h1 (h2 e (List.mem_cons_self e rest))]
    show rest.foldlM step { st with new_events := st.new_events ++ [e] } = _
    rw [ih { st with new_events := st.new_events ++ [e] } h1
      (fun e' he' => h2 e' (List.mem_cons_of_mem _ he'))]
    simp

/-- C9: on an event sequence with no footnote-definition and no
footnote-reference events, `bottom_footnotes` is the identity — no thematic
break and no list wrapper are appended. -/
theorem c9_identity_on_footnote_free (evs : List Event)
    (h : ∀ e ∈ evs, isFootnoteEvent e = false) :
    bottom_footnotes evs = some evs := by
  unfold bottom_footnotes runPass
  rw [foldlM_step_no_footnote evs initialState rfl h]
  simp [initialState]

/-- C9 witness: a concrete footnote-free stream maps to itself. -/
theorem c9_witness :
    bottom_footnotes [.Text "hi", .Rule, .Start .Paragraph, .End .Paragraph] =
      some [.Text "hi", .Rule, .Start .Paragraph, .End .Paragraph] :=
  c9_identity_on_footnote_free _ (by decide)

/-- The pass succeeds on any stream whose definition start/end events are
well-nested relative to the current stack depth. -/
theorem foldlM_step_balanced (evs : List Event) :
    ∀ st : PassState, balancedDefs evs st.in_footnote.length = true →
      (evs.foldlM step st).isSome = true := by
  induction evs with
  | nil => intro st _; simp [List.foldlM_nil]
  | cons e rest ih =>
    intro st hb
    obtain ⟨ne, fns, inf, nums⟩ := st
    rw [List.foldlM_cons]
    cases e with
    | Start t =>
      cases t with
      | FootnoteDefinition l => exact ih _ hb
      | Link lt d ti i =>
        cases inf with
        | nil => exact ih _ hb
        | cons buf infRest => exact ih _ hb
      | Paragraph =>
        cases inf with
        | nil => exact ih _ hb
        | cons buf infRest => exact ih _ hb
      | Other c =>
        cases inf with
        | nil => exact ih _ hb
        | cons buf infRest => exact ih _ hb
    | End t =>
      cases t with
      | FootnoteDefinition =>
        cases inf with
        | nil => simp [balancedDefs] at hb
        | cons buf infRest =>
          exact ih _ (by simpa [balancedDefs] using hb)
      | Paragraph =>
        cases inf with
        | nil => exact ih _ hb
        | cons buf infRest => exact ih _ hb
      | Other c =>
        cases inf with
        | nil => exact ih _ hb
        | cons buf infRest => exact ih _ hb
    | FootnoteReference name =>
      cases inf with
      | nil => exact ih _ hb
      | cons buf infRest => exact ih _ hb
    | Html s =>
      cases inf with
      | nil => exact ih _ hb
      | cons buf infRest => exact ih _ hb
    | Rule =>
      cases inf with
      | nil => exact ih _ hb
      | cons buf infRest => exact ih _ hb
    | Text s =>
      cases inf with
      | nil => exact ih _ hb
      | cons buf infRest => exact ih _ hb
    | Other c =>
      cases inf with
      | nil => exact ih _ hb
      | cons buf infRest => exact ih _ hb

/-- C10: `bottom_footnotes` is total on every stream whose footnote-definition
start/end events are well-nested (each end closes an open definition), and
panics — modelled by `none` — on a stream with a definition-end event that has
no open definition. -/
theorem c10_totality :
    (∀ evs, balancedDefs evs 0 = true → (bottom_footnotes evs).isSome = true) ∧
    bottom_footnotes [.End .FootnoteDefinition] = none := by
  constructor
  · intro evs hb
    have h := foldlM_step_balanced evs initialState hb
    unfold bottom_footnotes runPass
    obtain ⟨st, hst⟩ := Option.isSome_iff_exists.mp h
    rw [hst]
    show (if st.footnotes.isEmpty then some st.new_events else _).isSome = true
    split <;> rfl
  · rfl

/-- C10 witness: a concrete well-nested stream on which the pass succeeds. -/
theorem c10_witness :
    balancedDefs [.Start (.FootnoteDefinition "x"), .Text "t", .End .FootnoteDefinition] 0 =
        true ∧
    (bottom_footnotes
        [.Start (.FootnoteDefinition "x"), .Text "t", .End .FootnoteDefinition]).isSome =
      true :=
  ⟨by decide, c10_totality.1 _ (by decide)⟩

/-- Looking up an untouched label is unchanged by `setCount`. -/
theorem lookupNumber_setCount_other (L : String) (c' : Nat) :
    ∀ m : List (String × Nat × Nat), ∀ L', L' ≠ L →
      lookupNumber (setCount m L c') L' = lookupNumber m L' := by
  intro m
  induction m with
  | nil => intro L' _; rfl
  | cons kv rest ih =>
    intro L' hne
    obtain ⟨k, n0, c0⟩ := kv
    by_cases hk : k = L
    · subst hk
      simp [setCount, lookupNumber, Ne.symm hne]
    · simp only [setCount, if_neg hk]
      by_cases hk' : k = L'
      · subst hk'
        simp [lookupNumber]
      · simp [lookupNumber, hk', ih L' hne]

/-- `setCount` rewrites the count stored next to the label's number. -/
theorem lookupNumber_setCount_self (L : String) (c' : Nat) :
    ∀ m : List (String × Nat × Nat), ∀ n c, lookupNumber m L = some (n, c) →
      lookupNumber (setCount m L c') L = some (n, c') := by
  intro m
  induction m with
  | nil => intro n c h; simp [lookupNumber] at h
  | cons kv rest ih =>
    intro n c h
    obtain ⟨k, n0, c0⟩ := kv
    by_cases hk : k = L
    · subst hk
      simp [lookupNumber] at h
      simp [setCount, lookupNumber, h.1]
    · simp only [lookupNumber, if_neg hk] at h
      simp only [setCount, if_neg hk, lookupNumber, if_neg hk]
      exact ih n c h

/-- `setCount` preserves the number of seen labels. -/
theorem setCount_length (L : String) (c' : Nat) :
    ∀ m : List (String × Nat × Nat), (setCount m L c').length = m.length := by
  intro m
  induction m with
  | nil => rfl
  | cons kv rest ih =>
    obtain ⟨k, n0, c0⟩ := kv
    by_cases hk : k = L
    · simp [setCount, hk]
    · simp [setCount, hk, ih]

/-- Lookup distributes over append when the label misses the first part. -/
theorem lookupNumber_append_of_none (L : String) :
    ∀ m m2 : List (String × Nat × Nat), lookupNumber m L = none →
      lookupNumber (m ++ m2) L = lookupNumber m2 L := by
  intro m
  induction m with
  | nil => intro m2 _; rfl
  | cons kv rest ih =>
    intro m2 h
    obtain ⟨k, n0, c0⟩ := kv
    by_cases hk : k = L
    · simp [lookupNumber, hk] at h
    · simp only [lookupNumber, if_neg hk] at h
      simpa [lookupNumber, hk] using ih m2 h

/-- Lookup sticks with the first part of an append when it hits there. -/
theorem lookupNumber_append_of_some (L : String) (v : Nat × Nat) :
    ∀ m m2 : List (String × Nat × Nat), lookupNumber m L = some v →
      lookupNumber (m ++ m2) L = some v := by
  intro m
  induction m with
  | nil => intro m2 h; simp [lookupNumber] at h
  | cons kv rest ih =>
    intro m2 h
    obtain ⟨k, n0, c0⟩ := kv
    by_cases hk : k = L
    · subst hk
      simp [lookupNumber] at h
      simp [lookupNumber, h]
    · simp only [lookupNumber, if_neg hk] at h
      simpa [lookupNumber, hk] using ih m2 h

/-- C3: during the forward pass, the first reference to a not-yet-seen label
is assigned `n = |seen labels| + 1` and its usage count starts at 1; every
later reference keeps the same `n` and increments the usage count by one;
other labels' entries are untouched, and a reference event updates the map in
exactly this way (`bumpRef`). -/
theorem c3_reference_numbering (m : List (String × Nat × Nat)) (L : String) :
    (lookupNumber m L = none →
        bumpRef m L = (m ++ [(L, m.length + 1, 1)], m.length + 1, 1) ∧
        lookupNumber (bumpRef m L).1 L = some (m.length + 1, 1) ∧
        (bumpRef m L).1.length = m.length + 1) ∧
    (∀ n c, lookupNumber m L = some (n, c) →
        bumpRef m L = (setCount m L (c + 1), n, c + 1) ∧
        lookupNumber (bumpRef m L).1 L = some (n, c + 1) ∧
        (bumpRef m L).1.length = m.length) ∧
    (∀ L', L' ≠ L → lookupNumber (bumpRef m L).1 L' = lookupNumber m L') ∧
    (∀ st : PassState, st.footnote_numbers = m →
        (step st (.FootnoteReference L)).map PassState.footnote_numbers =
          some (bumpRef m L).1) := by
  refine ⟨?_, ?_, ?_, ?_⟩
  · intro h
    refine ⟨by simp [bumpRef, h], ?_, by simp [bumpRef, h]⟩
    simp only [bumpRef, h]
    rw [lookupNumber_append_of_none L m _ h]
    simp [lookupNumber]
  · intro n c h
    refine ⟨by simp [bumpRef, h], ?_, by simp [bumpRef, h, setCount_length]⟩
    simp only [bumpRef, h]
    exact lookupNumber_setCount_self L (c + 1) m n c h
  · intro L' hne
    cases hL : lookupNumber m L with
    | none =>
      simp only [bumpRef, hL]
      cases hL' : lookupNumber m L' with
      | none =>
        rw [lookupNumber_append_of_none L' m _ hL']
        simp [lookupNumber, Ne.symm hne, hL']
      | some v => exact lookupNumber_append_of_some L' v m _ hL'
    | some v =>
      obtain ⟨n, c⟩ := v
      simp only [bumpRef, hL]
      rw [lookupNumber_setCount_other L (c + 1) m L' hne]
  · intro st hst
    obtain ⟨ne, fns, inf, nums⟩ := st
    cases hst
    cases inf with
    | nil => rfl
    | cons buf infRest => rfl

/-- C3 witness: a fresh label gets the next number with count 1; a seen label
keeps its number and bumps its count. -/
theorem c3_witness :
    bumpRef [("a", 1, 2)] "b" = ([("a", 1, 2), ("b", 2, 1)], 2, 1) ∧
    lookupNumber (bumpRef [("a", 1, 2)] "a").1 "a" = some (1, 3) :=
  ⟨((c3_reference_numbering [("a", 1, 2)] "b").1 (by decide)).1,
   ((c3_reference_numbering [("a", 1, 2)] "a").2.1 1 2 (by decide)).2.1⟩

theorem charOfNat_toNat (n : Nat) (h : n < 55296) : (Char.ofNat n).toNat = n := by
  simp [Char.ofNat, Char.ofNatAux, Char.toNat, Nat.isValidChar, h, UInt32.toNat,
    BitVec.toNat_ofNatLt]

theorem toLower_idem (c : Char) : Char.toLower (Char.toLower c) = Char.toLower c := by
  simp only [Char.toLower]
  split
  · next hc =>
    have h1 : (Char.ofNat (c.toNat + 32)).toNat = c.toNat + 32 :=
      charOfNat_toNat _ (by omega)
    rw [if_neg]
    rw [h1]
    omega
  · rfl

theorem splitOnceList_eq_none (pat : List Char) :
    ∀ cs, containsSub pat cs = false → splitOnceList pat cs = none := by
  intro cs
  induction cs with
  | nil => intro _; rfl
  | cons c rest ih =>
    intro h
    simp only [containsSub, Bool.or_eq_false_iff] at h
    simp only [splitOnceList, if_neg (by simp [h.1] : ¬pat.isPrefixOf (c :: rest) = true)]
    rw [ih h.2]

theorem parseLine_no_sep (l : List Char) (h : containsSub [':', ' '] l = false) :
    parseLine l = .error .BadKeyValue := by
  simp [parseLine, splitOnceList_eq_none _ l h]

theorem parseLine_cases (l : List Char) :
    parseLine l = .error .BadKeyValue ∨ ∃ kv, parseLine l = .ok kv := by
  unfold parseLine
  cases splitOnceList [':', ' '] l with
  | none => exact Or.inl rfl
  | some kv => exact Or.inr ⟨_, rfl⟩

theorem collectLines_error :
    ∀ lines : List (List Char), (∃ l ∈ lines, containsSub [':', ' '] l = false) →
      collectLines lines = .error .BadKeyValue := by
  intro lines
  induction lines with
  | nil => intro h; simp at h
  | cons l rest ih =>
    intro h
    rcases h with ⟨l', hl', hc⟩
    rcases List.mem_cons.mp hl' with h1 | h2
    · subst h1
      simp [collectLines, parseLine_no_sep l' hc]
    · rcases parseLine_cases l with he | ⟨kv, hok⟩
      · simp [collectLines, he]
      · simp [collectLines, hok, ih ⟨l', h2, hc⟩]

theorem map_toLower_idem (k : List Char) :
    (k.map Char.toLower).map Char.toLower = k.map Char.toLower := by
  rw [List.map_map]
  exact List.map_congr_left fun c _ => toLower_idem c

theorem parseLine_key_lower (l : List Char) (kv : List Char × List Char)
    (h : parseLine l = .ok kv) : kv.1 = kv.1.map Char.toLower := by
  unfold parseLine at h
  cases hs : splitOnceList [':', ' '] l with
  | none => rw [hs] at h; cases h
  | some p =>
    rw [hs] at h
    cases h
    exact (map_toLower_idem p.1).symm

theorem collectLines_keys_lower :
    ∀ (lines : List (List Char)) (kvs : List (List Char × List Char)),
      collectLines lines = .ok kvs →
      ∀ kv ∈ kvs, kv.1 = kv.1.map Char.toLower := by
  intro lines
  induction lines with
  | nil =>
    intro kvs h kv hkv
    simp [collectLines] at h
    subst h
    simp at hkv
  | cons l rest ih =>
    intro kvs h kv hkv
    cases hl : parseLine l with
    | error e => simp [collectLines, hl] at h
    | ok kv0 =>
      cases hr : collectLines rest with
      | error e => simp [collectLines, hl, hr] at h
      | ok kvs' =>
        simp [collectLines, hl, hr] at h
        subst h
        rcases List.mem_cons.mp hkv with h1 | h2
        · subst h1; exact parseLine_key_lower l kv hl
        · exact ih kvs' hr kv h2

/-- C7 (amended): front-matter parsing fails for every file lacking a
blank-line separator, and for every metadata line that contains NO `": "`
key/value separator (a line with more than one occurrence splits at the first
occurrence and succeeds — see the counterexample); on success every metadata
key is ASCII-case-folded to lower case. -/
theorem c7_front_matter (contents : List Char) :
    (containsSub ['\n', '\n'] contents = false →
      parseFrontMatter contents = .error .MissingBlankLine) ∧
    (∀ metadata markdown,
      splitOnceList ['\n', '\n'] contents = some (metadata, markdown) →
      (∃ l ∈ metadata.splitOn '\n', containsSub [':', ' '] l = false) →
      exceptOk (parseFrontMatter contents) = false) ∧
    (∀ kvs body, parseFrontMatter contents = .ok (kvs, body) →
      ∀ kv ∈ kvs, kv.1 = kv.1.map Char.toLower) := by
  refine ⟨?_, ?_, ?_⟩
  · intro h
    simp [parseFrontMatter, splitOnceList_eq_none _ contents h]
  · intro metadata markdown hsplit hex
    simp only [parseFrontMatter, hsplit]
    by_cases htitle : containsSub "title: ".toList metadata = true
    · rw [if_pos htitle, collectLines_error _ hex]
      rfl
    · rw [if_neg htitle]
      rfl
  · intro kvs body h kv hkv
    unfold parseFrontMatter at h
    split at h
    · cases h
    · next metadata markdown hs =>
      split at h
      · split at h
        · next hc =>
          injection h with h1
          injection h1 with h2 h3
          subst h2
          exact collectLines_keys_lower _ _ hc kv hkv
        · cases h
      · cases h

/-- C7 witness: a file without a blank-line separator is rejected. -/
theorem c7_witness :
    parseFrontMatter "title: x".toList = .error .MissingBlankLine :=
  (c7_front_matter "title: x".toList).1 (by decide)

/-- C7 counterexample: the metadata line `"title: a: b"` contains the `": "`
separator at two positions — not exactly one — yet the file parses
successfully, splitting at the first occurrence. -/
theorem c7_counterexample :
    countSub [':', ' '] "title: a: b".toList = 2 ∧
    exceptValue (parseFrontMatter "title: a: b\n\nbody".toList) =
      some ([("title".toList, "a: b".toList)], "body".toList) := by
  decide

/-- C6 (amended): output-path derivation — a `save_as` value is used verbatim;
otherwise the slug keeps only alphanumeric and whitespace characters,
lower-cases them and maps each space to a hyphen, with no trimming or
collapsing of whitespace (so "Hello, World!" gives "hello-world" and
"  Already--slugged  " gives "--alreadyslugged--"); layout "page" puts the
slug at the root, any other layout under `blog/<YYYY>/<MM>/<DD>/<slug>`. -/
theorem c6_output_path (md : List (String × String)) (d : Date) :
    (∀ p, mlookup md "save_as" = some p → output_path md d = some p) ∧
    (∀ t, mlookup md "save_as" = none → mlookup md "title" = some t →
        ((mlookup md "layout").getD "" = "page" → output_path md d = some (slugify t)) ∧
        ((mlookup md "layout").getD "" ≠ "page" →
          output_path md d = some ("blog/" ++ formatYmd d ++ "/" ++ slugify t))) ∧
    slugify "Hello, World!" = "hello-world" ∧
    slugify "  Already--slugged  " = "--alreadyslugged--" := by
  refine ⟨?_, ?_, by decide, by decide⟩
  · intro p hp
    simp [output_path, hp]
  · intro t hs ht
    constructor
    · intro hl
      simp [output_path, hs, ht, hl]
    · intro hl
      simp [output_path, hs, ht, hl]

/-- C6 witness: a titled post without `save_as` lands under the blog path. -/
theorem c6_witness :
    output_path [("title", "Hi World")] ⟨2020, 1, 2⟩ =
      some ("blog/" ++ formatYmd ⟨2020, 1, 2⟩ ++ "/" ++ slugify "Hi World") :=
  (((c6_output_path [("title", "Hi World")] ⟨2020, 1, 2⟩).2.1 "Hi World"
      (by decide) (by decide)).2 (by decide))

/-- C6 counterexample: the title `"  Already--slugged  "` is NOT trimmed or
collapsed — the filter keeps the whitespace, so the leading and trailing
space pairs each become a pair of hyphens. -/
theorem c6_counterexample :
    slugify "  Already--slugged  " = "--alreadyslugged--" ∧
    "--alreadyslugged--" ≠ "alreadyslugged" ∧
    "--alreadyslugged--" ≠ "already-slugged" := by
  decide


theorem log_max_exp_eq (M : ℕ) (hM : 1 ≤ M) :
    Real.log (max (M : ℝ) (Real.exp 1)) = max (Real.log M) 1 := by
  have hM0 : (0 : ℝ) < M := by exact_mod_cast hM
  rcases le_total (M : ℝ) (Real.exp 1) with h | h
  · rw [max_eq_right h]
    rw [Real.log_exp]
    have hlog : Real.log M ≤ 1 := by
      calc Real.log M ≤ Real.log (Real.exp 1) := Real.log_le_log hM0 h
        _ = 1 := Real.log_exp 1
    rw [max_eq_right hlog]
  · rw [max_eq_left h]
    have hlog : 1 ≤ Real.log M := by
      calc (1 : ℝ) = Real.log (Real.exp 1) := (Real.log_exp 1).symm
        _ ≤ Real.log M := Real.log_le_log (Real.exp_pos 1) h
    rw [max_eq_left hlog]

/-- C8: for 1 ≤ c ≤ M the code's weight equals the claim's formula, lies in
[1, 5], and is monotonically non-increasing in c. -/
theorem c8_tag_weight (c M : ℕ) (h1 : 1 ≤ c) (h2 : c ≤ M) :
    tag_weight c M = claim_weight c M ∧
    1 ≤ tag_weight c M ∧ tag_weight c M ≤ 5 ∧
    ∀ c', c ≤ c' → c' ≤ M → tag_weight c' M ≤ tag_weight c M := by
  have hM : 1 ≤ M := le_trans h1 h2
  have hMr : (1 : ℝ) ≤ (M : ℝ) := by exact_mod_cast hM
  have hcr : (1 : ℝ) ≤ (c : ℝ) := by exact_mod_cast h1
  have hD1 : (1 : ℝ) ≤ max (Real.log M) 1 := le_max_right _ _
  have hD0 : (0 : ℝ) < max (Real.log M) 1 := lt_of_lt_of_le one_pos hD1
  have hlogc0 : 0 ≤ Real.log c := Real.log_nonneg hcr
  have hlogle : Real.log c ≤ max (Real.log M) 1 :=
    le_trans (Real.log_le_log (by linarith) (by exact_mod_cast h2)) (le_max_left _ _)
  have hr0 : 0 ≤ Real.log c / max (Real.log M) 1 := div_nonneg hlogc0 hD0.le
  have hr1 : Real.log c / max (Real.log M) 1 ≤ 1 := (div_le_one hD0).mpr hlogle
  refine ⟨?_, ?_, ?_, ?_⟩
  · unfold tag_weight claim_weight
    rw [log_max_exp_eq M hM]
  · unfold tag_weight
    have : (0 : ℝ) ≤ (max_step - 1) * (1 - Real.log c / max (Real.log M) 1) := by
      have : (0 : ℝ) ≤ max_step - 1 := by norm_num [max_step]
      nlinarith
    have h0 : (0 : ℤ) ≤ ⌊(max_step - 1) * (1 - Real.log c / max (Real.log M) 1)⌋ :=
      Int.le_floor.mpr (by simpa using this)
    omega
  · unfold tag_weight
    have hx4 : (max_step - 1) * (1 - Real.log c / max (Real.log M) 1) ≤ 4 := by
      have : (0 : ℝ) ≤ Real.log c / max (Real.log M) 1 := hr0
      norm_num [max_step]
      nlinarith
    have h4 : ⌊(max_step - 1) * (1 - Real.log c / max (Real.log M) 1)⌋ ≤ 4 := by
      have := Int.floor_le_floor hx4
      simpa using this
    omega
  · intro c' hc1 hc2
    unfold tag_weight
    have hcc : Real.log c ≤ Real.log c' := by
      apply Real.log_le_log (by linarith)
      exact_mod_cast hc1
    have hrr : Real.log c / max (Real.log M) 1 ≤ Real.log c' / max (Real.log M) 1 := by
      gcongr
    have hmul : (max_step - 1) * (1 - Real.log c' / max (Real.log M) 1) ≤
        (max_step - 1) * (1 - Real.log c / max (Real.log M) 1) := by
      have h40 : (0 : ℝ) ≤ max_step - 1 := by norm_num [max_step]
      nlinarith
    have := Int.floor_le_floor hmul
    omega


/-- C8 witness: for a single-member tag with the largest tag of size 2, the
weight lies in [1, 5]. -/
theorem c8_witness :
    1 ≤ tag_weight 1 2 ∧ tag_weight 1 2 ≤ 5 :=
  ⟨(c8_tag_weight 1 2 (by norm_num) (by norm_num)).2.1,
   (c8_tag_weight 1 2 (by norm_num) (by norm_num)).2.2.1⟩


theorem usageCount_eq (m : List (String × Nat × Nat)) (L : String) :
    usageCount m L = ((lookupNumber m L).getD (0, 0)).2 := by
  unfold usageCount
  cases lookupNumber m L <;> rfl

theorem bumpRef_usageCount (m : List (String × Nat × Nat)) (L L' : String) :
    usageCount (bumpRef m L).1 L' =
      if L' = L then usageCount m L' + 1 else usageCount m L' := by
  by_cases h : L' = L
  · subst h
    rw [if_pos rfl]
    cases hL : lookupNumber m L' with
    | none =>
      unfold bumpRef
      rw [hL]
      unfold usageCount
      rw [lookupNumber_append_of_none L' m _ hL, hL]
      simp [lookupNumber]
    | some v =>
      obtain ⟨n, c⟩ := v
      unfold bumpRef
      rw [hL]
      unfold usageCount
      rw [lookupNumber_setCount_self L' (c + 1) m n c hL, hL]
      rfl
  · rw [if_neg h]
    cases hL : lookupNumber m L with
    | none =>
      unfold bumpRef
      rw [hL]
      unfold usageCount
      cases hL' : lookupNumber m L' with
      | none =>
        rw [lookupNumber_append_of_none L' m _ hL']
        simp [lookupNumber, Ne.symm h]
      | some v => rw [lookupNumber_append_of_some L' v m _ hL']
    | some v =>
      obtain ⟨n, c⟩ := v
      unfold bumpRef
      rw [hL]
      unfold usageCount
      rw [lookupNumber_setCount_other L (c + 1) m L' h]

theorem step_numbers (st st' : PassState) (e : Event) (h : step st e = some st') :
    st'.footnote_numbers =
      match e with
      | .FootnoteReference name => (bumpRef st.footnote_numbers name).1
      | _ => st.footnote_numbers := by
  obtain ⟨ne, fns, inf, nums⟩ := st
  cases e with
  | Start t =>
    cases t with
    | FootnoteDefinition l => cases h; rfl
    | Link lt d ti i => cases inf with
      | nil => cases h; rfl
      | cons buf bufs => cases h; rfl
    | Paragraph => cases inf with
      | nil => cases h; rfl
      | cons buf bufs => cases h; rfl
    | Other c => cases inf with
      | nil => cases h; rfl
      | cons buf bufs => cases h; rfl
  | End t =>
    cases t with
    | FootnoteDefinition =>
      cases inf with
      | nil => cases h
      | cons buf bufs => cases h; rfl
    | Paragraph => cases inf with
      | nil => cases h; rfl
      | cons buf bufs => cases h; rfl
    | Other c => cases inf with
      | nil => cases h; rfl
      | cons buf bufs => cases h; rfl
  | FootnoteReference name =>
    cases inf with
    | nil => cases h; rfl
    | cons buf bufs => cases h; rfl
  | Html s => cases inf with
    | nil => cases h; rfl
    | cons buf bufs => cases h; rfl
  | Rule => cases inf with
    | nil => cases h; rfl
    | cons buf bufs => cases h; rfl
  | Text s => cases inf with
    | nil => cases h; rfl
    | cons buf bufs => cases h; rfl
  | Other c => cases inf with
    | nil => cases h; rfl
    | cons buf bufs => cases h; rfl

theorem step_usageCount (st st' : PassState) (e : Event) (h : step st e = some st')
    (L : String) :
    usageCount st'.footnote_numbers L =
      usageCount st.footnote_numbers L + (if e = .FootnoteReference L then 1 else 0) := by
  rw [step_numbers st st' e h]
  cases e with
  | FootnoteReference name =>
    show usageCount (bumpRef st.footnote_numbers name).1 L = _
    rw [bumpRef_usageCount st.footnote_numbers name L]
    by_cases hn : L = name
    · subst hn
      simp
    · rw [if_neg hn, if_neg (by simp [Ne.symm hn] :
        ¬(Event.FootnoteReference name = Event.FootnoteReference L))]
      omega
  | Start t => simp
  | End t => simp
  | Html s => simp
  | Rule => simp
  | Text s => simp
  | Other c => simp

theorem foldlM_step_countRefs (evs : List Event) :
    ∀ st st', evs.foldlM step st = some st' → ∀ L,
      usageCount st'.footnote_numbers L =
        usageCount st.footnote_numbers L + countRefs evs L := by
  induction evs with
  | nil =>
    intro st st' h L
    rw [List.foldlM_nil] at h
    cases h
    simp [countRefs]
  | cons e rest ih =>
    intro st st' h L
    rw [List.foldlM_cons] at h
    cases hstep : step st e with
    | none =>
      rw [hstep] at h
      cases h
    | some st1 =>
      rw [hstep] at h
      have h2 := ih st1 st' h L
      rw [h2, step_usageCount st st1 e hstep L]
      by_cases he : e = .FootnoteReference L
      · simp [countRefs, List.filter_cons, he]
        omega
      · simp [countRefs, List.filter_cons, he]

theorem runPass_countRefs (evs : List Event) (st : PassState)
    (h : runPass evs = some st) (L : String) :
    usageCount st.footnote_numbers L = countRefs evs L := by
  have := foldlM_step_countRefs evs initialState st h L
  simpa [initialState, usageCount, lookupNumber] using this


theorem renderEvents_pass_other (numbers : List (String × Nat × Nat)) (flLen i : Nat)
    (name : String) (w : Bool) (e : Event) (rest : List Event)
    (he1 : ∀ l, e ≠ .Start (.FootnoteDefinition l))
    (he2 : e ≠ .End .FootnoteDefinition)
    (he3 : e ≠ .End .Paragraph) :
    renderEvents numbers flLen i name w (e :: rest) =
      e :: renderEvents numbers flLen (i + 1) name w rest := by
  cases e with
  | Start t => cases t with
    | FootnoteDefinition l => exact absurd rfl (he1 l)
    | Link lt d ti id => rfl
    | Paragraph => rfl
    | Other c => rfl
  | End t => cases t with
    | FootnoteDefinition => exact absurd rfl he2
    | Paragraph => exact absurd rfl he3
    | Other c => rfl
  | FootnoteReference l => rfl
  | Html s => rfl
  | Rule => rfl
  | Text s => rfl
  | Other c => rfl

theorem renderEvents_endPar_pass (numbers : List (String × Nat × Nat)) (flLen i : Nat)
    (name : String) (w : Bool) (rest : List Event)
    (hguard : ¬(flLen - 2 ≤ i) ∨ w = true) :
    renderEvents numbers flLen i name w (.End .Paragraph :: rest) =
      .End .Paragraph :: renderEvents numbers flLen (i + 1) name w rest := by
  rcases hguard with h | h
  · simp [renderEvents, h]
  · subst h
    simp [renderEvents]

theorem renderEvents_endPar_write (numbers : List (String × Nat × Nat)) (flLen i : Nat)
    (name : String) (rest : List Event) (hguard : flLen - 2 ≤ i) :
    renderEvents numbers flLen i name false (.End .Paragraph :: rest) =
      .Html (backrefString name ((lookupNumber numbers name).getD (0, 0)).2 ++ "</p>\n") ::
        renderEvents numbers flLen (i + 1) name true rest := by
  simp [renderEvents, hguard]

theorem renderEvents_endDef_write (numbers : List (String × Nat × Nat)) (flLen i : Nat)
    (name : String) (rest : List Event) (hguard : flLen - 2 ≤ i) :
    renderEvents numbers flLen i name false (.End .FootnoteDefinition :: rest) =
      .Html (backrefString name ((lookupNumber numbers name).getD (0, 0)).2 ++ "</li>\n") ::
        renderEvents numbers flLen (i + 1) name true rest := by
  simp [renderEvents, hguard]

theorem renderEvents_endDef_plain (numbers : List (String × Nat × Nat)) (flLen i : Nat)
    (name : String) (rest : List Event) :
    renderEvents numbers flLen i name true (.End .FootnoteDefinition :: rest) =
      .Html "</li>\n" :: renderEvents numbers flLen (i + 1) name true rest := by
  simp [renderEvents]

theorem renderEvents_mid (numbers : List (String × Nat × Nat)) (L : String) (flLen : Nat) :
    ∀ (mid : List Event) (i : Nat), i + mid.length + 1 = flLen →
      (∀ e ∈ mid, (∀ l, e ≠ .Start (.FootnoteDefinition l)) ∧ e ≠ .End .FootnoteDefinition) →
      renderEvents numbers flLen i L false (mid ++ [.End .FootnoteDefinition]) =
        (if mid.getLast? = some (.End .Paragraph) then
          mid.dropLast ++
            [.Html (backrefString L ((lookupNumber numbers L).getD (0, 0)).2 ++ "</p>\n"),
             .Html "</li>\n"]
        else
          mid ++ [.Html (backrefString L ((lookupNumber numbers L).getD (0, 0)).2 ++ "</li>\n")]) := by
  intro mid
  induction mid with
  | nil =>
    intro i hi _
    rw [List.nil_append]
    rw [renderEvents_endDef_write numbers flLen i L [] (by simp at hi; omega)]
    simp [renderEvents]
  | cons e mid' ih =>
    intro i hi hno
    cases mid' with
    | nil =>
      by_cases hp : e = .End .Paragraph
      · subst hp
        rw [List.cons_append, List.nil_append]
        rw [renderEvents_endPar_write numbers flLen i L _ (by simp at hi; omega)]
        rw [renderEvents_endDef_plain]
        simp [renderEvents]
      · rw [List.cons_append, List.nil_append]
        rw [renderEvents_pass_other numbers flLen i L false e _
          (hno e (by simp)).1 (hno e (by simp)).2 hp]
        rw [renderEvents_endDef_write numbers flLen (i + 1) L [] (by simp at hi; omega)]
        simp [renderEvents, hp]
    | cons e2 mid'' =>
      have hpass : renderEvents numbers flLen i L false
          ((e :: e2 :: mid'') ++ [.End .FootnoteDefinition]) =
          e :: renderEvents numbers flLen (i + 1) L false
            ((e2 :: mid'') ++ [.End .FootnoteDefinition]) := by
        by_cases hp : e = .End .Paragraph
        · subst hp
          rw [List.cons_append]
          exact renderEvents_endPar_pass numbers flLen i L false _
            (Or.inl (by simp at hi; omega))
        · rw [List.cons_append]
          exact renderEvents_pass_other numbers flLen i L false e _
            (hno e (by simp)).1 (hno e (by simp)).2 hp
      rw [hpass, ih (i + 1) (by simp at hi ⊢; omega)
        (fun e' he' => hno e' (by simp [he']))]
      by_cases hlast : (e2 :: mid'').getLast? = some (Event.End TagEnd.Paragraph)
      · rw [if_pos hlast, if_pos (by rwa [List.getLast?_cons_cons])]
        simp
      · rw [if_neg hlast, if_neg (by rwa [List.getLast?_cons_cons])]
        simp


theorem join_append_single (l : List String) (x : String) :
    String.join (l ++ [x]) = String.join l ++ x := by
  simp [String.join, List.foldl_append]

/-- C2: for a label L with c earlier references, the next reference event is
replaced in place (main stream, or innermost open buffer) by the inline anchor
`refHtml L n (c+1)` — whose HTML carries DOM id `fr-<L>-<j>` and links
`#fn-<L>` — and after the whole pass L's usage count equals its total number
of references k, so the j-th reference got usage index j; the injected
back-reference block is the concatenation of k anchors, the j-th linking
`#fr-<L>-<j>`, the first a plain return glyph and later ones glyph+number;
the block is injected exactly once into each surviving definition body, at the
final paragraph end when the body ends with one, else at the definition end. -/
theorem c2_reference_anchors :
    (∀ (st : PassState) (L : String) (n c : Nat),
      lookupNumber st.footnote_numbers L = some (n, c) →
      (st.in_footnote = [] →
        step st (.FootnoteReference L) =
          some { st with
            footnote_numbers := setCount st.footnote_numbers L (c + 1),
            new_events := st.new_events ++ [refHtml L n (c + 1)] }) ∧
      (∀ buf bufs, st.in_footnote = buf :: bufs →
        step st (.FootnoteReference L) =
          some { st with
            footnote_numbers := setCount st.footnote_numbers L (c + 1),
            in_footnote := (buf ++ [refHtml L n (c + 1)]) :: bufs })) ∧
    (∀ (st : PassState) (L : String),
      lookupNumber st.footnote_numbers L = none →
      (st.in_footnote = [] →
        step st (.FootnoteReference L) =
          some { st with
            footnote_numbers := st.footnote_numbers ++
              [(L, st.footnote_numbers.length + 1, 1)],
            new_events := st.new_events ++
              [refHtml L (st.footnote_numbers.length + 1) 1] }) ∧
      (∀ buf bufs, st.in_footnote = buf :: bufs →
        step st (.FootnoteReference L) =
          some { st with
            footnote_numbers := st.footnote_numbers ++
              [(L, st.footnote_numbers.length + 1, 1)],
            in_footnote :=
              (buf ++ [refHtml L (st.footnote_numbers.length + 1) 1]) :: bufs })) ∧
    (∀ L n j, refHtml L n j =
      .Html ("<sup class=\"footnote-reference\" id=\"fr-" ++ L ++ "-" ++ toString j ++
        "\"><a href=\"#fn-" ++ L ++ "\">[" ++ toString n ++ "]</a></sup>")) ∧
    (∀ evs st L, runPass evs = some st →
      usageCount st.footnote_numbers L = countRefs evs L) ∧
    (∀ L k, backrefString L (k + 1) = backrefString L k ++ backrefAnchor L (k + 1)) ∧
    (∀ L : String, backrefString L 0 = "" ∧
      backrefAnchor L 1 = " <a href=\"#fr-" ++ L ++ "-" ++ toString 1 ++ "\">↩</a>") ∧
    toString (1 : Nat) = "1" ∧
    (∀ (L : String) (j : Nat), 2 ≤ j → backrefAnchor L j =
      " <a href=\"#fr-" ++ L ++ "-" ++ toString j ++ "\">↩" ++ toString j ++ "</a>") ∧
    (∀ (numbers : List (String × Nat × Nat)) (L : String) (mid : List Event),
      (∀ e ∈ mid, (∀ l, e ≠ .Start (.FootnoteDefinition l)) ∧
        e ≠ .End .FootnoteDefinition) →
      renderFootnote numbers
          (.Start (.FootnoteDefinition L) :: mid ++ [.End .FootnoteDefinition]) =
        .Html s!"<li id=\"fn-{L}\">" ::
          (if mid.getLast? = some (.End .Paragraph) then
            mid.dropLast ++
              [.Html (backrefString L (usageCount numbers L) ++ "</p>\n"),
               .Html "</li>\n"]
          else
            mid ++ [.Html (backrefString L (usageCount numbers L) ++ "</li>\n")])) := by
  refine ⟨?_, ?_, ?_, ?_, ?_, ?_, ?_, ?_, ?_⟩
  · intro st L n c hlk
    obtain ⟨ne, fns, inf, nums⟩ := st
    constructor
    · intro hinf
      cases hinf
      simp [step, bumpRef, hlk]
    · intro buf bufs hinf
      cases hinf
      simp [step, bumpRef, hlk]
  · intro st L hlk
    obtain ⟨ne, fns, inf, nums⟩ := st
    constructor
    · intro hinf
      cases hinf
      simp [step, bumpRef, hlk]
    · intro buf bufs hinf
      cases hinf
      simp [step, bumpRef, hlk]
  · intro L n j
    rfl
  · exact fun evs st L h => runPass_countRefs evs st h L
  · intro L k
    simp [backrefString, List.range_succ, join_append_single]
  · intro L
    exact ⟨rfl, rfl⟩
  · rfl
  · intro L j hj
    unfold backrefAnchor
    rw [if_neg (by omega)]
    rfl
  · intro numbers L mid hno
    unfold renderFootnote
    have hlen : (Event.Start (Tag.FootnoteDefinition L) :: mid ++
        [Event.End TagEnd.FootnoteDefinition]).length = mid.length + 2 := by
      simp
    rw [hlen]
    show Event.Html _ :: renderEvents numbers (mid.length + 2) 1 L false
        (mid ++ [Event.End TagEnd.FootnoteDefinition]) = _
    rw [renderEvents_mid numbers L (mid.length + 2) mid 1 (by omega) hno]
    rw [usageCount_eq]


/-- C1: whenever the pass succeeds and collected at least one definition,
`bottom_footnotes` appends — exactly once, at the very end of the output —
the retained footnote bodies, which are a permutation of the collected
definitions whose labels were referenced (every unreferenced definition is
dropped), sorted by the label's first-reference number; in particular the
spec's ordering example renders B (referenced first, defined last) before A,
numbered 1 and 2. -/
theorem c1_bottom_ordering (evs : List Event) (st : PassState)
    (h : runPass evs = some st) (hne : st.footnotes ≠ []) :
    bottom_footnotes evs = some (st.new_events ++ [Event.Rule, olOpen] ++
      ((survivors st).map (renderFootnote st.footnote_numbers)).flatten) ∧
    (survivors st).Pairwise (fun f g =>
      sortKey st.footnote_numbers f ≤ sortKey st.footnote_numbers g) ∧
    (survivors st).Perm (st.footnotes.filter (isReferenced st.footnote_numbers)) ∧
    (∀ f ∈ st.footnotes, isReferenced st.footnote_numbers f = true → f ∈ survivors st) ∧
    (∀ f ∈ survivors st, isReferenced st.footnote_numbers f = true) ∧
    bottom_footnotes exampleBA = some exampleBAOut := by
  have hemp : st.footnotes.isEmpty = false := by
    cases hf : st.footnotes with
    | nil => exact absurd hf hne
    | cons a l => rfl
  have hperm := List.perm_insertionSort
    (fun f g => sortKey st.footnote_numbers f ≤ sortKey st.footnote_numbers g)
    (st.footnotes.filter (isReferenced st.footnote_numbers))
  refine ⟨?_, ?_, hperm, ?_, ?_, by decide⟩
  · unfold bottom_footnotes
    rw [h]
    show (if st.footnotes.isEmpty then some st.new_events
      else some (st.new_events ++ [Event.Rule, olOpen] ++
        ((survivors st).map (renderFootnote st.footnote_numbers)).flatten)) = _
    rw [hemp]
    rfl
  · unfold survivors
    haveI : IsTrans (List Event) (fun f g =>
        sortKey st.footnote_numbers f ≤ sortKey st.footnote_numbers g) :=
      ⟨fun _ _ _ => Nat.le_trans⟩
    haveI : IsTotal (List Event) (fun f g =>
        sortKey st.footnote_numbers f ≤ sortKey st.footnote_numbers g) :=
      ⟨fun _ _ => Nat.le_total _ _⟩
    exact List.sorted_insertionSort _ _
  · intro f hf href
    exact hperm.mem_iff.mpr (List.mem_filter.mpr ⟨hf, href⟩)
  · intro f hf
    exact (List.mem_filter.mp (hperm.mem_iff.mp hf)).2

/-- C1 witness: the spec's ordering example instantiates the theorem. -/
theorem c1_witness :
    bottom_footnotes exampleBA = some (exampleBASt.new_events ++ [Event.Rule, olOpen] ++
      ((survivors exampleBASt).map (renderFootnote exampleBASt.footnote_numbers)).flatten) :=
  (c1_bottom_ordering exampleBA exampleBASt (by decide) (by decide)).1

/-- C2 witness: on the spec's example, label "b" ends with usage count equal
to its two references. -/
theorem c2_witness :
    usageCount exampleBASt.footnote_numbers "b" = countRefs exampleBA "b" :=
  c2_reference_anchors.2.2.2.1 exampleBA exampleBASt "b" (by decide)

end Kaihan
